import Mathlib

/-!
# Verification of the `shaderlab` docking-layout core (`src/app/tabs.rs`)

This file is a shallow embedding, in Lean 4, of the array-backed implicit
binary layout tree of the repository: the `NodeIndex` addressing arithmetic,
the `TreeNode` slot variants, and the `SplitTree` operations
(`new`, `split`, `split_tabs`, `append_tab`, `remove_tab`,
`remove_empty_leaf`, `find_active`), followed by theorems settling the
specification's claims about them.

Modelling conventions:
* `usize` is modelled as `Nat` (the operations under study never overflow a
  machine word on the inputs the claims quantify over).
* `f32` payloads (`fraction`) and `egui::Rect` payloads (`rect`, `viewport`)
  are stored by the tree but never computed with, so they are modelled as
  inert token types with decidable equality.
* Rust panics (`unwrap`, `assert!`, out-of-range `Vec` indexing inside
  `tabs.remove`) are modelled with `Option`/`Except` results, where `none` /
  `.error` is the panic.  For `SplitTree::split` the `.error` payload carries
  the tree state at the moment the `assert!` fires, because the parent slot
  has already been overwritten by `mem::replace` at that point.
* `Vec<TreeNode>` is a `List TreeNode`; Rust's `vec[i]` reads are modelled by
  `treeGet` (total, with the `TreeNode::None` default); every theorem that
  depends on a read being in bounds carries that bound as a hypothesis, so
  the modelled runs coincide with Rust runs.
-/

/-- Inert stand-in for the `egui::Rect` payload (`rect` / `viewport` fields).
The layout tree only stores and moves these values, so a token with
decidable equality is a faithful model. -/
structure Rect where
  id : Nat
deriving DecidableEq, Repr

/-- `Rect::NOTHING`, the placeholder rectangle used by the constructors. -/
def Rect.NOTHING : Rect := ⟨0⟩

/-- Inert stand-in for the `f32` split fraction: the tree stores it verbatim
and never computes with it. -/
structure Frac where
  val : Nat
deriving DecidableEq, Repr

/-- The concrete panel types of the application (`SceneTab`, `Hierarchy`,
`Inspector`, `Timeline`, `PlaceholderTab`, ...).  A `downcast_mut::<T>` in the
source is a runtime type test, modelled by comparing this tag. -/
inductive PanelKind where
  | sceneTab
  | hierarchy
  | inspector
  | timeline
  | placeholder
deriving DecidableEq, Repr

/-- A `Box<dyn TabInner>` panel value: its runtime type tag plus its
(abstracted) private state. -/
structure Panel where
  kind : PanelKind
  state : Nat
deriving DecidableEq, Repr

/-- `tab.inner.downcast_mut::<T>()`: succeeds exactly when the panel's runtime
type is `k`. -/
def Panel.downcast (k : PanelKind) (p : Panel) : Option Panel :=
  if p.kind = k then some p else none

/-- `Tab { icon, title, inner }`. -/
structure Tab where
  icon : Char
  title : String
  inner : Panel
deriving DecidableEq, Repr

/-- `enum TreeNode { None, Leaf { .. }, Vertical { .. }, Horizontal { .. } }`. -/
inductive TreeNode where
  | None : TreeNode
  | Leaf (rect : Rect) (viewport : Rect) (tabs : List Tab) (active : Nat) : TreeNode
  | Vertical (rect : Rect) (fraction : Frac) : TreeNode
  | Horizontal (rect : Rect) (fraction : Frac) : TreeNode
deriving DecidableEq, Repr

namespace TreeNode

/-- `TreeNode::leaf(tab)`. -/
def leaf (tab : Tab) : TreeNode :=
  .Leaf Rect.NOTHING Rect.NOTHING [tab] 0

/-- `TreeNode::leaf_with(tabs)`. -/
def leaf_with (tabs : List Tab) : TreeNode :=
  .Leaf Rect.NOTHING Rect.NOTHING tabs 0

/-- `TreeNode::is_none`. -/
def is_none : TreeNode → Bool
  | .None => true
  | _ => false

/-- `TreeNode::is_leaf`. -/
def is_leaf : TreeNode → Bool
  | .Leaf _ _ _ _ => true
  | _ => false

/-- The guard of the collapse scan in `remove_empty_leaf`:
`TreeNode::Leaf { tabs, .. } if tabs.is_empty()`. -/
def is_empty_leaf : TreeNode → Bool
  | .Leaf _ _ tabs _ => tabs.isEmpty
  | _ => false

/-- `enum Split { Left, Right, Above, Below }`. -/
inductive Split where
  | Left
  | Right
  | Above
  | Below
deriving DecidableEq, Repr

end TreeNode

open TreeNode (Split)

namespace TreeNode

/-- `TreeNode::split(&mut self, split, fraction) -> Self`: builds the new
split node (`Horizontal` for `Left`/`Right`, `Vertical` for `Above`/`Below`)
and `mem::replace`s it into `self`, returning the old value.  Result is
`(value now stored in the slot, old value returned)`. -/
def split (self : TreeNode) (s : Split) (fraction : Frac) : TreeNode × TreeNode :=
  let rect := Rect.NOTHING
  let src := match s with
    | .Left | .Right => TreeNode.Horizontal rect fraction
    | .Above | .Below => TreeNode.Vertical rect fraction
  (src, self)

/-- `TreeNode::append_tab(tab)`: pushes onto a leaf's tab list; on any other
variant the source hits `unreachable!()`, modelled as `none`. -/
def append_tab (self : TreeNode) (tab : Tab) : Option TreeNode :=
  match self with
  | .Leaf rect viewport tabs active => some (.Leaf rect viewport (tabs ++ [tab]) active)
  | _ => none

/-- `TreeNode::remove_tab(index) -> Option<Tab>`: on a leaf, removes and
returns the tab at `index` (`Vec::remove` panics when `index` is out of
range, modelled by the outer `none`); on a non-leaf, returns the "absent"
answer `some (none, self)` without touching the node. -/
def remove_tab (self : TreeNode) (index : Nat) : Option (Option Tab × TreeNode) :=
  match self with
  | .Leaf rect viewport tabs active =>
    match tabs[index]? with
    | some tab => some (some tab, .Leaf rect viewport (tabs.eraseIdx index) active)
    | none => none
  | _ => some (none, self)

end TreeNode

/-- `struct NodeIndex(usize)`. -/
structure NodeIndex where
  idx : Nat
deriving DecidableEq, Repr

/-- Structural bit-length helper: `bitLenAux fuel n` is the number of binary
digits of `n` as long as `n ≤ fuel`.  `usize::BITS - x.leading_zeros()` in
the source is exactly the bit length of `x`; the fuel only makes the
recursion structural (and therefore kernel-reducible). -/
def bitLenAux : Nat → Nat → Nat
  | 0, _ => 0
  | _, 0 => 0
  | fuel + 1, n + 1 => bitLenAux fuel ((n + 1) / 2) + 1

namespace NodeIndex

/-- `NodeIndex::root()`. -/
def root : NodeIndex := ⟨0⟩

/-- `NodeIndex::left()`: `2 * i + 1`. -/
def left (self : NodeIndex) : NodeIndex := ⟨self.idx * 2 + 1⟩

/-- `NodeIndex::right()`: `2 * i + 2`. -/
def right (self : NodeIndex) : NodeIndex := ⟨self.idx * 2 + 2⟩

/-- `NodeIndex::parent()`: `(i - 1) / 2` for `i > 0`, `None` for the root. -/
def parent (self : NodeIndex) : Option NodeIndex :=
  if self.idx > 0 then some ⟨(self.idx - 1) / 2⟩ else none

/-- `NodeIndex::level()`: `usize::BITS - (i + 1).leading_zeros()`, i.e. the
bit length of `i + 1`. -/
def level (self : NodeIndex) : Nat :=
  bitLenAux (self.idx + 1) (self.idx + 1)

/-- `NodeIndex::is_left()`: odd indices are left children. -/
def is_left (self : NodeIndex) : Bool :=
  self.idx % 2 != 0

/-- `NodeIndex::is_right()`: even indices are right children. -/
def is_right (self : NodeIndex) : Bool :=
  self.idx % 2 == 0

/-- `NodeIndex::children_at(level)`: the half-open range (start, end) of the
slots of this node's descendants `level` levels below it. -/
def children_at (self : NodeIndex) (level : Nat) : Nat × Nat :=
  let base := 1 <<< level
  ((self.idx + 1) * base - 1, (self.idx + 2) * base - 1)

/-- `NodeIndex::children_left(level)`: the sub-range of `children_at level`
reachable through the left child. -/
def children_left (self : NodeIndex) (level : Nat) : Nat × Nat :=
  let base := 1 <<< level
  ((self.idx + 1) * base - 1, (self.idx + 1) * base + base / 2 - 1)

/-- `NodeIndex::children_right(level)`: the sub-range of `children_at level`
reachable through the right child. -/
def children_right (self : NodeIndex) (level : Nat) : Nat × Nat :=
  let base := 1 <<< level
  ((self.idx + 1) * base + base / 2 - 1, (self.idx + 2) * base - 1)

end NodeIndex

/-- `struct SplitTree { tree: Vec<TreeNode> }`: the backing sequence. -/
abbrev SplitTree := List TreeNode

/-- A read `self.tree[i]`, totalised with the `TreeNode::None` default.
Theorems that depend on the read being in bounds carry `i < t.length`. -/
def treeGet (t : SplitTree) (i : Nat) : TreeNode :=
  t.getD i TreeNode.None

namespace SplitTree

/-- `SplitTree::new(root)`: a one-slot backing sequence. -/
def new (root : TreeNode) : SplitTree := [root]

/-- The per-slot body of the `find_map` in `SplitTree::find_active`: on a
leaf, `tabs.get_mut(active)` (an optional, bounds-checked lookup) chained
with the downcast to `k`, paired with the leaf's stored `viewport`; `None`
on every other variant. -/
def leaf_hit (k : PanelKind) : TreeNode → Option (Rect × Panel)
  | .Leaf _ viewport tabs active =>
    tabs[active]?.bind fun tab =>
      (Panel.downcast k tab.inner).map fun p => (viewport, p)
  | _ => none

/-- `SplitTree::find_active::<T>()`: scan the slots in array order; for the
first leaf whose `tabs.get(active)` exists and whose active tab's panel
downcasts to `k`, return the leaf's stored `viewport` with that panel. -/
def find_active (t : SplitTree) (k : PanelKind) : Option (Rect × Panel) :=
  t.findSome? (leaf_hit k)

/-- `Vec::resize_with(new_len, || TreeNode::None)`: truncates when the vector
is at least `newLen` long, otherwise extends with `TreeNode::None`. -/
def resize_with (t : SplitTree) (newLen : Nat) : SplitTree :=
  if newLen ≤ t.length then t.take newLen
  else t ++ List.replicate (newLen - t.length) TreeNode.None

/-- `SplitTree::fix_len_parent(parent)`: resize the backing sequence to
`(1 << (parent.level() + 1)) + 1` slots. -/
def fix_len_parent (t : SplitTree) (parent : NodeIndex) : SplitTree :=
  let new_len := 1 <<< (parent.level + 1)
  resize_with t (new_len + 1)

/-- `SplitTree::split(parent, split, fraction, new)`.  The parent slot is
overwritten by `TreeNode::split` *before* the `assert!(old.is_leaf())`; on
assertion failure (`.error`) the payload is the backing sequence at the
moment of the panic, with the parent slot already replaced. -/
def split (t : SplitTree) (parent : NodeIndex) (s : Split) (fraction : Frac)
    (new : TreeNode) : Except SplitTree (SplitTree × NodeIndex × NodeIndex) :=
  let so := (treeGet t parent.idx).split s fraction
  let t1 := t.set parent.idx so.1
  let old := so.2
  if old.is_leaf then
    let t2 := fix_len_parent t1 parent
    let index : NodeIndex × NodeIndex := match s with
      | .Right | .Above => (parent.right, parent.left)
      | .Left | .Below => (parent.left, parent.right)
    let t3 := (t2.set index.1.idx old).set index.2.idx new
    .ok (t3, index)
  else
    .error t1

/-- `SplitTree::split_tabs(parent, split, fraction, tabs)`. -/
def split_tabs (t : SplitTree) (parent : NodeIndex) (s : Split) (fraction : Frac)
    (tabs : List Tab) : Except SplitTree (SplitTree × NodeIndex × NodeIndex) :=
  split t parent s fraction (TreeNode.leaf_with tabs)

/-- The caller pattern `tree[i].append_tab(tab)` (a `TreeNode` method applied
through the tree's `IndexMut`). -/
def append_tab_at (t : SplitTree) (i : Nat) (tab : Tab) : Option SplitTree :=
  ((treeGet t i).append_tab tab).map fun n => t.set i n

/-- The caller pattern `tree[i].remove_tab(index)`. -/
def remove_tab_at (t : SplitTree) (i : Nat) (index : Nat) :
    Option (Option Tab × SplitTree) :=
  ((treeGet t i).remove_tab index).map fun r => (r.1, t.set i r.2)

/-- One level of the promotion loop in `remove_empty_leaf`: the
`for (dst, src) in dst.zip(src)` body.  Copies `cnt` slots from `src...` to
`dst...` in order, `mem::replace`-ing each source slot with `TreeNode::None`;
stops and reports `false` (the `break 'end`) as soon as a source index runs
past the end of the backing sequence. -/
def copyLevel (t : SplitTree) (dst src : Nat) : Nat → SplitTree × Bool
  | 0 => (t, true)
  | cnt + 1 =>
    if t.length ≤ src then (t, false)
    else
      let v := treeGet t src
      copyLevel ((t.set src TreeNode.None).set dst v) (dst + 1) (src + 1) cnt

theorem copyLevel_length (cnt : Nat) :
    ∀ t dst src, ((copyLevel t dst src cnt).1).length = t.length := by
  induction cnt with
  | zero => intro t dst src; rfl
  | succ n ih =>
    intro t dst src
    by_cases h : t.length ≤ src
    · simp [copyLevel, h]
    · simp [copyLevel, h, ih]

theorem copyLevel_true_le (cnt : Nat) :
    ∀ t dst src, cnt ≠ 0 → (copyLevel t dst src cnt).2 = true →
      src + cnt ≤ t.length := by
  induction cnt with
  | zero => intro t dst src h; omega
  | succ n ih =>
    intro t dst src _ htrue
    by_cases h : t.length ≤ src
    · simp [copyLevel, h] at htrue
    · by_cases hn : n = 0
      · subst hn; omega
      · have := ih ((t.set src TreeNode.None).set dst (treeGet t src)) (dst + 1) (src + 1) hn
        simp [copyLevel, h] at htrue
        have hle := this htrue
        simp at hle
        omega

/-- The source range of one promotion level (`children_right` of the parent
one level deeper when the removed leaf was a left child, `children_left`
otherwise), written without the `base / 2` division. -/
theorem children_right_succ (p : NodeIndex) (l : Nat) :
    p.children_right (l + 1) =
      ((p.idx + 1) * 2 ^ (l + 1) + 2 ^ l - 1, (p.idx + 2) * 2 ^ (l + 1) - 1) := by
  simp only [NodeIndex.children_right, Nat.shiftLeft_eq, one_mul]
  have h2 : (2 : Nat) ^ (l + 1) / 2 = 2 ^ l := by
    rw [pow_succ, Nat.mul_div_cancel _ (by norm_num)]
  rw [h2]

theorem children_left_succ (p : NodeIndex) (l : Nat) :
    p.children_left (l + 1) =
      ((p.idx + 1) * 2 ^ (l + 1) - 1, (p.idx + 1) * 2 ^ (l + 1) + 2 ^ l - 1) := by
  simp only [NodeIndex.children_left, Nat.shiftLeft_eq, one_mul]
  have h2 : (2 : Nat) ^ (l + 1) / 2 = 2 ^ l := by
    rw [pow_succ, Nat.mul_div_cancel _ (by norm_num)]
  rw [h2]

theorem children_at_spec (p : NodeIndex) (l : Nat) :
    p.children_at l = ((p.idx + 1) * 2 ^ l - 1, (p.idx + 2) * 2 ^ l - 1) := by
  simp only [NodeIndex.children_at, Nat.shiftLeft_eq, one_mul]

/-- The source range selector of the promotion loop: the removed leaf being a
left child (`fromRight = true`) draws sources from `children_right` of the
parent one level deeper, a right child from `children_left`. -/
def promoteSrc (p : NodeIndex) (fromRight : Bool) (level : Nat) : Nat × Nat :=
  match fromRight with
  | true => p.children_right (level + 1)
  | false => p.children_left (level + 1)

theorem promoteSrc_fst (p : NodeIndex) (fromRight : Bool) (level : Nat) :
    2 ^ (level + 1) ≤ (promoteSrc p fromRight level).1 + 1 := by
  have h1 : (1 : Nat) ≤ 2 ^ level := Nat.one_le_two_pow
  have e1 : (p.idx + 1) * 2 ^ (level + 1) = 2 * ((p.idx + 1) * 2 ^ level) := by ring
  have hxB : 2 ^ level ≤ (p.idx + 1) * 2 ^ level :=
    Nat.le_mul_of_pos_left _ (by omega)
  have hps : (2 : Nat) ^ (level + 1) = 2 * 2 ^ level := by ring
  cases fromRight <;>
    simp only [promoteSrc, children_right_succ, children_left_succ] <;>
    (rw [e1]; omega)

theorem promoteCnt_eq (p : NodeIndex) (fromRight : Bool) (level : Nat) :
    min ((p.children_at level).2 - (p.children_at level).1)
      ((promoteSrc p fromRight level).2 - (promoteSrc p fromRight level).1) =
      2 ^ level := by
  have h1 : (1 : Nat) ≤ 2 ^ level := Nat.one_le_two_pow
  have e1 : (p.idx + 1) * 2 ^ (level + 1) = 2 * ((p.idx + 1) * 2 ^ level) := by ring
  have e2 : (p.idx + 2) * 2 ^ (level + 1) =
      2 * ((p.idx + 1) * 2 ^ level) + 2 * 2 ^ level := by ring
  have e3 : (p.idx + 2) * 2 ^ level = (p.idx + 1) * 2 ^ level + 2 ^ level := by ring
  have hxB : 2 ^ level ≤ (p.idx + 1) * 2 ^ level :=
    Nat.le_mul_of_pos_left _ (by omega)
  cases fromRight <;>
    simp only [promoteSrc, children_at_spec, children_right_succ,
      children_left_succ] <;>
    (simp only [e1, e2, e3]; omega)

/-- If a promotion level runs to completion (no `break`), the whole next
level of the array must exist: `2 ^ (level + 1) ≤ t.length`. -/
theorem promote_continue_bound (t : SplitTree) (p : NodeIndex) (fromRight : Bool)
    (level : Nat)
    (h : (copyLevel t (p.children_at level).1 (promoteSrc p fromRight level).1
        (min ((p.children_at level).2 - (p.children_at level).1)
          ((promoteSrc p fromRight level).2 -
           (promoteSrc p fromRight level).1))).2 = true) :
    2 ^ (level + 1) ≤ t.length := by
  have h1 : (1 : Nat) ≤ 2 ^ level := Nat.one_le_two_pow
  rw [promoteCnt_eq] at h
  have hsrc := promoteSrc_fst p fromRight level
  have := copyLevel_true_le (2 ^ level) t (p.children_at level).1
    (promoteSrc p fromRight level).1 (by positivity) h
  omega

/-- The promotion loop of `remove_empty_leaf` (`'left_end`/`'right_end`
loops): starting from `level = 0`, copy the parent's depth-`level` descendant
range from the sibling's matching half one level deeper, until a source index
falls off the end of the backing sequence. -/
def promoteLoop (t : SplitTree) (p : NodeIndex) (fromRight : Bool) (level : Nat) :
    SplitTree :=
  let dst := p.children_at level
  let src := promoteSrc p fromRight level
  let cnt := min (dst.2 - dst.1) (src.2 - src.1)
  let r := copyLevel t dst.1 src.1 cnt
  if h : r.2 = true then
    promoteLoop r.1 p fromRight (level + 1)
  else
    r.1
termination_by t.length + 1 - 2 ^ level
decreasing_by
  have hlen := copyLevel_length
    (min ((p.children_at level).2 - (p.children_at level).1)
      ((promoteSrc p fromRight level).2 - (promoteSrc p fromRight level).1))
    t (p.children_at level).1 (promoteSrc p fromRight level).1
  have hb := promote_continue_bound t p fromRight level h
  have h1 : (1 : Nat) ≤ 2 ^ level := Nat.one_le_two_pow
  omega

/-- `SplitTree::remove_empty_leaf()`: find the first leaf with an empty tab
list (array order); if none, do nothing.  Otherwise take its parent
(`.unwrap()` — panics, modelled as `none`, when the empty leaf is the root),
clear parent and leaf slots, and promote the sibling subtree one level up. -/
def remove_empty_leaf (t : SplitTree) : Option SplitTree :=
  let found := t.findIdx? TreeNode.is_empty_leaf
  match found with
  | none => some t
  | some n =>
    let node : NodeIndex := ⟨n⟩
    match node.parent with
    | none => none
    | some p =>
      let t1 := t.set p.idx TreeNode.None
      let t2 := t1.set node.idx TreeNode.None
      some (promoteLoop t2 p node.is_left 0)

end SplitTree

/-- The array index of the sibling that survives a collapse: the removed
leaf being a left child (`fromRight = true`) leaves the right child
`2p + 2`, a right child leaves the left child `2p + 1`. -/
def SplitTree.sibIdx (p : NodeIndex) : Bool → Nat
  | true => p.idx * 2 + 2
  | false => p.idx * 2 + 1

/-!
## Reading and writing backing-sequence slots

`treeGet`/`List.set` lemmas used throughout the development.
-/

theorem treeGet_set_eq (t : SplitTree) (i : Nat) (v : TreeNode) (h : i < t.length) :
    treeGet (t.set i v) i = v := by
  simp [treeGet, List.getD_eq_getElem?_getD, List.getElem?_set_self, h]

theorem treeGet_set_ne (t : SplitTree) (i j : Nat) (v : TreeNode) (h : i ≠ j) :
    treeGet (t.set i v) j = treeGet t j := by
  simp [treeGet, List.getD_eq_getElem?_getD, List.getElem?_set_ne h]

theorem treeGet_oob (t : SplitTree) (j : Nat) (h : t.length ≤ j) :
    treeGet t j = .None := by
  simp [treeGet, List.getD_eq_getElem?_getD, List.getElem?_eq_none h]

namespace SplitTree

/-!
## The copy loop of one promotion level
-/

theorem copyLevel_frame :
    ∀ (cnt : Nat) (t : SplitTree) (dst src j : Nat),
      (j < dst ∨ dst + cnt ≤ j) → (j < src ∨ src + cnt ≤ j) →
      treeGet (copyLevel t dst src cnt).1 j = treeGet t j := by
  intro cnt
  induction cnt with
  | zero => intro t dst src j _ _; rfl
  | succ c ih =>
    intro t dst src j hd hs
    rw [copyLevel]
    by_cases hlen : t.length ≤ src
    · simp only [if_pos hlen]
    · simp only [if_neg hlen]
      rw [ih _ (dst + 1) (src + 1) j (by omega) (by omega)]
      rw [treeGet_set_ne _ _ _ _ (by omega), treeGet_set_ne _ _ _ _ (by omega)]

theorem copyLevel_get_copied :
    ∀ (cnt : Nat) (t : SplitTree) (dst src k : Nat), dst + cnt ≤ src → k < cnt →
      src + k < t.length →
      treeGet (copyLevel t dst src cnt).1 (dst + k) = treeGet t (src + k) := by
  intro cnt
  induction cnt with
  | zero => intro t dst src k _ hk; omega
  | succ c ih =>
    intro t dst src k halias hk hlen
    have hsrc : ¬ (t.length ≤ src) := by omega
    rw [copyLevel]
    simp only [if_neg hsrc]
    cases k with
    | zero =>
      rw [copyLevel_frame c _ (dst + 1) (src + 1) (dst + 0) (by omega) (by omega)]
      simp only [Nat.add_zero]
      rw [treeGet_set_eq _ _ _ (by simp; omega)]
    | succ k' =>
      have := ih ((t.set src TreeNode.None).set dst (treeGet t src)) (dst + 1) (src + 1) k'
        (by omega) (by omega) (by simp; omega)
      rw [show dst + (k' + 1) = dst + 1 + k' by omega, this,
        show src + 1 + k' = src + (k' + 1) by omega]
      rw [treeGet_set_ne _ _ _ _ (by omega), treeGet_set_ne _ _ _ _ (by omega)]

theorem copyLevel_slots :
    ∀ (cnt : Nat) (t : SplitTree) (dst src j : Nat),
      treeGet (copyLevel t dst src cnt).1 j = .None ∨
      ∃ i, i < t.length ∧ treeGet (copyLevel t dst src cnt).1 j = treeGet t i := by
  intro cnt
  induction cnt with
  | zero =>
    intro t dst src j
    by_cases hj : j < t.length
    · exact Or.inr ⟨j, hj, rfl⟩
    · exact Or.inl (treeGet_oob t j (by omega))
  | succ c ih =>
    intro t dst src j
    rw [copyLevel]
    by_cases hlen : t.length ≤ src
    · simp only [if_pos hlen]
      by_cases hj : j < t.length
      · exact Or.inr ⟨j, hj, rfl⟩
      · exact Or.inl (treeGet_oob t j (by omega))
    · simp only [if_neg hlen]
      have hlen2 : ((t.set src TreeNode.None).set dst (treeGet t src)).length = t.length := by
        simp
      rcases ih ((t.set src TreeNode.None).set dst (treeGet t src)) (dst + 1) (src + 1) j
        with h | ⟨i, hi, hh⟩
      · exact Or.inl h
      · rw [hh]
        by_cases hid : i = dst
        · rw [hid]
          by_cases hdd : dst < t.length
          · exact Or.inr ⟨src, by omega, treeGet_set_eq _ _ _ (by simp; omega)⟩
          · exact Or.inl (treeGet_oob _ dst (by omega))
        · by_cases his : i = src
          · rw [his, treeGet_set_ne _ _ _ _ (by omega),
              treeGet_set_eq _ _ _ (by omega)]
            exact Or.inl rfl
          · rw [treeGet_set_ne _ _ _ _ (by omega),
              treeGet_set_ne _ _ _ _ (by omega)]
            exact Or.inr ⟨i, by omega, rfl⟩

theorem copyLevel_false_le :
    ∀ (cnt : Nat) (t : SplitTree) (dst src : Nat),
      (copyLevel t dst src cnt).2 = false → t.length ≤ src + cnt := by
  intro cnt
  induction cnt with
  | zero => intro t dst src h; simp [copyLevel] at h
  | succ c ih =>
    intro t dst src h
    rw [copyLevel] at h
    by_cases hlen : t.length ≤ src
    · omega
    · simp only [if_neg hlen] at h
      have := ih _ (dst + 1) (src + 1) h
      simp at this
      omega

/-!
## The promotion loop
-/

/-- The promotion sources at loop iteration `level` are exactly the
depth-`level` descendant range of the surviving sibling. -/
theorem promoteSrc_sib (p : NodeIndex) (fromRight : Bool) (level : Nat) :
    promoteSrc p fromRight level =
      ((sibIdx p fromRight + 1) * 2 ^ level - 1,
       (sibIdx p fromRight + 2) * 2 ^ level - 1) := by
  have ha : (p.idx * 2 + 1 + 1) * 2 ^ level = (p.idx + 1) * 2 ^ (level + 1) := by ring
  have hb : (p.idx * 2 + 1 + 2) * 2 ^ level =
      (p.idx + 1) * 2 ^ (level + 1) + 2 ^ level := by ring
  have hc : (p.idx * 2 + 2 + 1) * 2 ^ level =
      (p.idx + 1) * 2 ^ (level + 1) + 2 ^ level := by ring
  have hd : (p.idx * 2 + 2 + 2) * 2 ^ level = (p.idx + 2) * 2 ^ (level + 1) := by ring
  cases fromRight
  · simp only [promoteSrc, sibIdx, children_left_succ]
    rw [ha, hb]
  · simp only [promoteSrc, sibIdx, children_right_succ]
    rw [hc, hd]

theorem promoteLoop_length (t : SplitTree) (p : NodeIndex) (fromRight : Bool)
    (level : Nat) :
    (promoteLoop t p fromRight level).length = t.length := by
  induction t, p, fromRight, level using promoteLoop.induct
  next t p fromRight level d s c r h ih =>
    rw [promoteLoop, dif_pos h]
    exact ih.trans (copyLevel_length _ t _ _)
  next t p fromRight level d s c r h =>
    rw [promoteLoop, dif_neg h]
    exact copyLevel_length _ t _ _

/-- Slots strictly below the parent's own descendant range at the starting
level are never touched by the promotion loop. -/
theorem promoteLoop_frame :
    ∀ (t : SplitTree) (p : NodeIndex) (fromRight : Bool) (level : Nat) (j : Nat),
      j + 1 < (p.idx + 1) * 2 ^ level →
      treeGet (promoteLoop t p fromRight level) j = treeGet t j := by
  intro t0 p0 fromRight0 level0
  induction t0, p0, fromRight0, level0 using promoteLoop.induct
  next t p fromRight level d s c r h ih =>
    intro j hj
    rw [promoteLoop, dif_pos h]
    have hd : d.1 = (p.idx + 1) * 2 ^ level - 1 := by
      rw [show d = p.children_at level from rfl, children_at_spec]
    have hs : s.1 = (sibIdx p fromRight + 1) * 2 ^ level - 1 := by
      rw [show s = promoteSrc p fromRight level from rfl, promoteSrc_sib]
    have hc : c = 2 ^ level := by
      rw [show c = min (d.2 - d.1) (s.2 - s.1) from rfl,
        show d = p.children_at level from rfl,
        show s = promoteSrc p fromRight level from rfl]
      exact promoteCnt_eq p fromRight level
    have h1 : (1 : Nat) ≤ 2 ^ level := Nat.one_le_two_pow
    have hsib : 2 * p.idx + 1 ≤ sibIdx p fromRight ∧
        sibIdx p fromRight ≤ 2 * p.idx + 2 := by
      cases fromRight <;> (simp only [sibIdx]; omega)
    have hcs : (p.idx + 1) * 2 ^ level ≤ (sibIdx p fromRight + 1) * 2 ^ level :=
      Nat.mul_le_mul_right _ (by omega)
    have hmono : (p.idx + 1) * 2 ^ level ≤ (p.idx + 1) * 2 ^ (level + 1) :=
      Nat.mul_le_mul_left _ (Nat.pow_le_pow_right (by norm_num) (by omega))
    have step1 : treeGet (promoteLoop r.1 p fromRight (level + 1)) j = treeGet r.1 j :=
      ih j (by omega)
    have step2 : treeGet (copyLevel t d.1 s.1 c).1 j = treeGet t j :=
      copyLevel_frame c t d.1 s.1 j (by omega) (by omega)
    exact step1.trans step2
  next t p fromRight level d s c r h =>
    intro j hj
    rw [promoteLoop, dif_neg h]
    have hd : d.1 = (p.idx + 1) * 2 ^ level - 1 := by
      rw [show d = p.children_at level from rfl, children_at_spec]
    have hs : s.1 = (sibIdx p fromRight + 1) * 2 ^ level - 1 := by
      rw [show s = promoteSrc p fromRight level from rfl, promoteSrc_sib]
    have h1 : (1 : Nat) ≤ 2 ^ level := Nat.one_le_two_pow
    have hsib : 2 * p.idx + 1 ≤ sibIdx p fromRight ∧
        sibIdx p fromRight ≤ 2 * p.idx + 2 := by
      cases fromRight <;> (simp only [sibIdx]; omega)
    have hcs : (p.idx + 1) * 2 ^ level ≤ (sibIdx p fromRight + 1) * 2 ^ level :=
      Nat.mul_le_mul_right _ (by omega)
    exact copyLevel_frame c t d.1 s.1 j (by omega) (by omega)

/-- Every slot of the promoted array is either `None` or a verbatim copy of
some slot of the input array (so leaf payloads, tab lists included, are
moved wholesale, never edited). -/
theorem promoteLoop_slots :
    ∀ (t : SplitTree) (p : NodeIndex) (fromRight : Bool) (level : Nat) (j : Nat),
      treeGet (promoteLoop t p fromRight level) j = .None ∨
      ∃ i, i < t.length ∧
        treeGet (promoteLoop t p fromRight level) j = treeGet t i := by
  intro t0 p0 fromRight0 level0
  induction t0, p0, fromRight0, level0 using promoteLoop.induct
  next t p fromRight level d s c r h ih =>
    intro j
    rw [promoteLoop, dif_pos h]
    rcases ih j with hnone | ⟨i, hi, hh⟩
    · exact Or.inl hnone
    · rw [hh]
      rcases copyLevel_slots c t d.1 s.1 i with hnone | ⟨i', hi', hh'⟩
      · exact Or.inl hnone
      · exact Or.inr ⟨i', hi', hh'⟩
  next t p fromRight level d s c r h =>
    intro j
    rw [promoteLoop, dif_neg h]
    exact copyLevel_slots c t d.1 s.1 j

end SplitTree

/-- The heart of the collapse: after the promotion loop starting at `level`,
the parent's depth-`l` descendant slot at offset `k` holds what the sibling's
depth-`l` descendant slot at the same offset held before, for every source
offset inside the backing sequence. -/
theorem SplitTree.promoteLoop_copies :
    ∀ (t : SplitTree) (p : NodeIndex) (fromRight : Bool) (level : Nat) (l k : Nat),
      level ≤ l → k < 2 ^ l →
      (SplitTree.sibIdx p fromRight + 1) * 2 ^ l - 1 + k < t.length →
      treeGet (SplitTree.promoteLoop t p fromRight level)
          ((p.idx + 1) * 2 ^ l - 1 + k) =
        treeGet t ((SplitTree.sibIdx p fromRight + 1) * 2 ^ l - 1 + k) := by
  intro t0 p0 fromRight0 level0
  induction t0, p0, fromRight0, level0 using SplitTree.promoteLoop.induct
  next t p fromRight level d s c r h ih =>
    intro l k hl hk hlen
    rw [SplitTree.promoteLoop, dif_pos h]
    have hd : d.1 = (p.idx + 1) * 2 ^ level - 1 := by
      rw [show d = p.children_at level from rfl, SplitTree.children_at_spec]
    have hs : s.1 = (SplitTree.sibIdx p fromRight + 1) * 2 ^ level - 1 := by
      rw [show s = SplitTree.promoteSrc p fromRight level from rfl,
        SplitTree.promoteSrc_sib]
    have hc : c = 2 ^ level := by
      rw [show c = min (d.2 - d.1) (s.2 - s.1) from rfl,
        show d = p.children_at level from rfl,
        show s = SplitTree.promoteSrc p fromRight level from rfl]
      exact SplitTree.promoteCnt_eq p fromRight level
    have h1 : (1 : Nat) ≤ 2 ^ level := Nat.one_le_two_pow
    have hsib : 2 * p.idx + 1 ≤ SplitTree.sibIdx p fromRight ∧
        SplitTree.sibIdx p fromRight ≤ 2 * p.idx + 2 := by
      cases fromRight <;> (simp only [SplitTree.sibIdx]; omega)
    have hx : 2 ^ level ≤ (p.idx + 1) * 2 ^ level :=
      Nat.le_mul_of_pos_left _ (by omega)
    have halias : (p.idx + 2) * 2 ^ level ≤
        (SplitTree.sibIdx p fromRight + 1) * 2 ^ level :=
      Nat.mul_le_mul_right _ (by omega)
    have e3 : (p.idx + 2) * 2 ^ level = (p.idx + 1) * 2 ^ level + 2 ^ level := by ring
    rcases Nat.eq_or_lt_of_le hl with heq | hlt
    · -- the level being copied right now
      subst heq
      have e : (p.idx + 1) * 2 ^ (level + 1) = 2 * ((p.idx + 1) * 2 ^ level) := by ring
      have hfr : ((p.idx + 1) * 2 ^ level - 1 + k) + 1 <
          (p.idx + 1) * 2 ^ (level + 1) := by
        omega
      rw [SplitTree.promoteLoop_frame r.1 p fromRight (level + 1) _ hfr]
      have hcp := SplitTree.copyLevel_get_copied c t d.1 s.1 k (by omega) (by omega)
        (by omega)
      have hd1 : d.1 + k = (p.idx + 1) * 2 ^ level - 1 + k := by omega
      have hs1 : s.1 + k = (SplitTree.sibIdx p fromRight + 1) * 2 ^ level - 1 + k := by
        omega
      rw [hd1, hs1] at hcp
      exact hcp
    · -- a deeper level: handled by the recursive call
      have hpow : 2 ^ (level + 1) ≤ 2 ^ l :=
        Nat.pow_le_pow_right (by norm_num) (by omega)
      have hA : (SplitTree.sibIdx p fromRight + 1) * 2 ^ (level + 1) ≤
          (SplitTree.sibIdx p fromRight + 1) * 2 ^ l :=
        Nat.mul_le_mul_left _ hpow
      have e2 : (SplitTree.sibIdx p fromRight + 1) * 2 ^ (level + 1) =
          2 * ((SplitTree.sibIdx p fromRight + 1) * 2 ^ level) := by ring
      have hxs : 2 ^ level ≤ (SplitTree.sibIdx p fromRight + 1) * 2 ^ level :=
        Nat.le_mul_of_pos_left _ (by omega)
      have hlen' : (SplitTree.sibIdx p fromRight + 1) * 2 ^ l - 1 + k <
          (SplitTree.copyLevel t d.1 s.1 c).1.length := by
        rw [SplitTree.copyLevel_length]; exact hlen
      have hstep := ih l k (by omega) hk hlen'
      refine hstep.trans ?_
      exact SplitTree.copyLevel_frame c t d.1 s.1 _ (by omega) (by omega)
  next t p fromRight level d s c r h =>
    intro l k hl hk hlen
    rw [SplitTree.promoteLoop, dif_neg h]
    have hd : d.1 = (p.idx + 1) * 2 ^ level - 1 := by
      rw [show d = p.children_at level from rfl, SplitTree.children_at_spec]
    have hs : s.1 = (SplitTree.sibIdx p fromRight + 1) * 2 ^ level - 1 := by
      rw [show s = SplitTree.promoteSrc p fromRight level from rfl,
        SplitTree.promoteSrc_sib]
    have hc : c = 2 ^ level := by
      rw [show c = min (d.2 - d.1) (s.2 - s.1) from rfl,
        show d = p.children_at level from rfl,
        show s = SplitTree.promoteSrc p fromRight level from rfl]
      exact SplitTree.promoteCnt_eq p fromRight level
    have h1 : (1 : Nat) ≤ 2 ^ level := Nat.one_le_two_pow
    have hsib : 2 * p.idx + 1 ≤ SplitTree.sibIdx p fromRight ∧
        SplitTree.sibIdx p fromRight ≤ 2 * p.idx + 2 := by
      cases fromRight <;> (simp only [SplitTree.sibIdx]; omega)
    have hx : 2 ^ level ≤ (p.idx + 1) * 2 ^ level :=
      Nat.le_mul_of_pos_left _ (by omega)
    have halias : (p.idx + 2) * 2 ^ level ≤
        (SplitTree.sibIdx p fromRight + 1) * 2 ^ level :=
      Nat.mul_le_mul_right _ (by omega)
    have e3 : (p.idx + 2) * 2 ^ level = (p.idx + 1) * 2 ^ level + 2 ^ level := by ring
    rcases Nat.eq_or_lt_of_le hl with heq | hlt
    · subst heq
      have hcp := SplitTree.copyLevel_get_copied c t d.1 s.1 k (by omega) (by omega)
        (by omega)
      have hd1 : d.1 + k = (p.idx + 1) * 2 ^ level - 1 + k := by omega
      have hs1 : s.1 + k = (SplitTree.sibIdx p fromRight + 1) * 2 ^ level - 1 + k := by
        omega
      rw [hd1, hs1] at hcp
      exact hcp
    · -- the break means every deeper source index is out of bounds
      exfalso
      have hfalse : r.2 = false := Bool.not_eq_true _ |>.mp h
      have hle := SplitTree.copyLevel_false_le c t d.1 s.1 hfalse
      have hpow : 2 ^ (level + 1) ≤ 2 ^ l :=
        Nat.pow_le_pow_right (by norm_num) (by omega)
      have hA : (SplitTree.sibIdx p fromRight + 1) * 2 ^ (level + 1) ≤
          (SplitTree.sibIdx p fromRight + 1) * 2 ^ l :=
        Nat.mul_le_mul_left _ hpow
      have e2 : (SplitTree.sibIdx p fromRight + 1) * 2 ^ (level + 1) =
          2 * ((SplitTree.sibIdx p fromRight + 1) * 2 ^ level) := by ring
      have hxs : 2 ^ level ≤ (SplitTree.sibIdx p fromRight + 1) * 2 ^ level :=
        Nat.le_mul_of_pos_left _ (by omega)
      omega

/-- Child addressing commutes with the depth/offset coordinates used by the
promotion: the node at offset `k` of depth `l` below base `b` has its
children at offsets `2k` and `2k + 1` of depth `l + 1`. -/
theorem child_edge_arith (b l k : Nat) :
    (NodeIndex.mk ((b + 1) * 2 ^ l - 1 + k)).left.idx =
      (b + 1) * 2 ^ (l + 1) - 1 + 2 * k ∧
    (NodeIndex.mk ((b + 1) * 2 ^ l - 1 + k)).right.idx =
      (b + 1) * 2 ^ (l + 1) - 1 + (2 * k + 1) := by
  have e : (b + 1) * 2 ^ (l + 1) = 2 * ((b + 1) * 2 ^ l) := by ring
  have h1 : 0 < (b + 1) * 2 ^ l := by positivity
  simp only [NodeIndex.left, NodeIndex.right]
  omega

/-- Full specification of a successful collapse, shared by the claims about
`remove_empty_leaf`: with `n` the first empty leaf and `n ≠ 0`, the parent
`p = (n-1)/2` exists, the backing length is preserved, every descendant of
the sibling `c` at depth `l` and offset `k` is copied one level shallower
(same offset, `p`'s range), and every surviving slot is a verbatim slot of
the input array. -/
theorem remove_empty_leaf_spec (t : SplitTree) (n : Nat)
    (hfind : t.findIdx? TreeNode.is_empty_leaf = some n) (hn : n ≠ 0) :
    ∃ p t', (NodeIndex.mk n).parent = some p ∧
      SplitTree.remove_empty_leaf t = some t' ∧
      t'.length = t.length ∧
      ∃ c, c = (if (NodeIndex.mk n).is_left then p.right.idx else p.left.idx) ∧
        (∀ l k, k < 2 ^ l → (c + 1) * 2 ^ l - 1 + k < t.length →
          treeGet t' ((p.idx + 1) * 2 ^ l - 1 + k) =
            treeGet t ((c + 1) * 2 ^ l - 1 + k)) ∧
        (∀ j, treeGet t' j = TreeNode.None ∨
          ∃ i, i < t.length ∧ treeGet t' j = treeGet t i) := by
  have hparent : (NodeIndex.mk n).parent = some ⟨(n - 1) / 2⟩ := by
    simp [NodeIndex.parent, Nat.pos_of_ne_zero hn]
  set p : NodeIndex := ⟨(n - 1) / 2⟩ with hp
  have hpidx : p.idx = (n - 1) / 2 := rfl
  set t2 : SplitTree := (t.set p.idx TreeNode.None).set n TreeNode.None with ht2
  have hrun : SplitTree.remove_empty_leaf t =
      some (SplitTree.promoteLoop t2 p (NodeIndex.mk n).is_left 0) := by
    rw [SplitTree.remove_empty_leaf]
    simp only [hfind, hparent]
  have hlen2 : t2.length = t.length := by simp [ht2]
  have hpn : p.idx < n := by omega
  refine ⟨p, _, hparent, hrun, ?_, ?_⟩
  · rw [SplitTree.promoteLoop_length, hlen2]
  · refine ⟨SplitTree.sibIdx p (NodeIndex.mk n).is_left, ?_, ?_, ?_⟩
    · cases h : (NodeIndex.mk n).is_left <;> rfl
    · -- the copy property
      intro l k hk hlen
      have hnp : n = 2 * p.idx + 1 ∨ n = 2 * p.idx + 2 := by omega
      have hcn : SplitTree.sibIdx p (NodeIndex.mk n).is_left ≠ n ∧
          2 * p.idx + 1 ≤ SplitTree.sibIdx p (NodeIndex.mk n).is_left ∧
          SplitTree.sibIdx p (NodeIndex.mk n).is_left ≤ 2 * p.idx + 2 := by
        rcases Nat.mod_two_eq_zero_or_one n with hm | hm
        · have hfr : (NodeIndex.mk n).is_left = false := by
            simp [NodeIndex.is_left, hm]
          rw [hfr]
          simp only [SplitTree.sibIdx]
          omega
        · have hfr : (NodeIndex.mk n).is_left = true := by
            simp [NodeIndex.is_left, hm]
          rw [hfr]
          simp only [SplitTree.sibIdx]
          omega
      have hmain := SplitTree.promoteLoop_copies t2 p (NodeIndex.mk n).is_left 0 l k
        (Nat.zero_le l) hk (by rw [hlen2]; exact hlen)
      rw [hmain]
      -- the source slot is neither the cleared parent slot nor the removed leaf
      have hsrc_ne :
          (SplitTree.sibIdx p (NodeIndex.mk n).is_left + 1) * 2 ^ l - 1 + k ≠ p.idx ∧
          (SplitTree.sibIdx p (NodeIndex.mk n).is_left + 1) * 2 ^ l - 1 + k ≠ n := by
        rcases Nat.eq_zero_or_pos l with hl0 | hlpos
        · subst hl0
          simp only [pow_zero, mul_one] at hk ⊢
          omega
        · have h2 : 2 ≤ 2 ^ l := by
            calc (2 : Nat) = 2 ^ 1 := by norm_num
            _ ≤ 2 ^ l := Nat.pow_le_pow_right (by norm_num) hlpos
          have hcl : (SplitTree.sibIdx p (NodeIndex.mk n).is_left + 1) * 2 ≤
              (SplitTree.sibIdx p (NodeIndex.mk n).is_left + 1) * 2 ^ l :=
            Nat.mul_le_mul_left _ h2
          omega
      rw [ht2, treeGet_set_ne _ _ _ _ (fun hh => hsrc_ne.2 hh.symm),
        treeGet_set_ne _ _ _ _ (fun hh => hsrc_ne.1 hh.symm)]
    · -- every surviving slot is a verbatim slot of the original array
      intro j
      rcases SplitTree.promoteLoop_slots t2 p (NodeIndex.mk n).is_left 0 j
        with hnone | ⟨i, hi, hh⟩
      · exact Or.inl hnone
      · rw [hh]
        rw [hlen2] at hi
        by_cases hip : i = p.idx
        · rw [hip, ht2, treeGet_set_ne _ _ _ _ (by omega)]
          exact Or.inl (treeGet_set_eq _ _ _ (by omega))
        · by_cases hin : i = n
          · rw [hin, ht2]
            by_cases hnlen : n < t.length
            · exact Or.inl (treeGet_set_eq _ _ _ (by simp; omega))
            · exact Or.inl (treeGet_oob _ _ (by simp; omega))
          · rw [ht2, treeGet_set_ne _ _ _ _ (by omega),
              treeGet_set_ne _ _ _ _ (by omega)]
            exact Or.inr ⟨i, hi, rfl⟩

/-!
## Bit length and `level`
-/

theorem bitLenAux_zero (fuel : Nat) : bitLenAux fuel 0 = 0 := by
  cases fuel <;> rfl

theorem bitLenAux_eq_log2 :
    ∀ (fuel n : Nat), 1 ≤ n → n ≤ fuel → bitLenAux fuel n = Nat.log2 n + 1 := by
  intro fuel
  induction fuel with
  | zero => intro n h1 h2; omega
  | succ f ih =>
    intro n h1 h2
    obtain ⟨m, rfl⟩ : ∃ m, n = m + 1 := ⟨n - 1, by omega⟩
    show bitLenAux f ((m + 1) / 2) + 1 = Nat.log2 (m + 1) + 1
    by_cases hm : 2 ≤ m + 1
    · rw [ih _ (by omega) (by omega)]
      conv_rhs => rw [Nat.log2]
      simp [hm]
    · obtain rfl : m = 0 := by omega
      norm_num [bitLenAux_zero]
      rw [Nat.log2]
      norm_num

/-- The source's `level` is the bit length of `i + 1`, i.e. `⌊log2 (i+1)⌋ + 1`. -/
theorem level_eq_log2 (i : NodeIndex) : i.level = Nat.log2 (i.idx + 1) + 1 :=
  bitLenAux_eq_log2 _ _ (by omega) (Nat.le_refl _)

/-- Any index is strictly below `2 ^ level`: the resize in `fix_len_parent`
always leaves the parent and both children in bounds. -/
theorem lt_pow_level (i : NodeIndex) : i.idx + 1 < 2 ^ i.level := by
  rw [level_eq_log2]
  exact (Nat.log2_lt (by omega)).mp (Nat.lt_succ_self _)

theorem level_monotone {i j : NodeIndex} (h : i.idx ≤ j.idx) : i.level ≤ j.level := by
  rw [level_eq_log2, level_eq_log2]
  have : Nat.log2 (i.idx + 1) ≤ Nat.log2 (j.idx + 1) := by
    rw [Nat.log2_eq_log_two, Nat.log2_eq_log_two]
    exact Nat.log_mono_right (by omega)
  omega

/-!
## `resize_with` and `split`
-/

theorem resize_with_length (t : SplitTree) (n : Nat) :
    (SplitTree.resize_with t n).length = n := by
  rw [SplitTree.resize_with]
  by_cases h : n ≤ t.length
  · simp [h]
  · simp [h]; omega

theorem treeGet_resize_with (t : SplitTree) (n j : Nat) (hj : j < n) :
    treeGet (SplitTree.resize_with t n) j =
      if j < t.length then treeGet t j else TreeNode.None := by
  rw [SplitTree.resize_with]
  by_cases h : n ≤ t.length
  · simp only [if_pos h]
    have hjl : j < t.length := by omega
    simp [treeGet, List.getD_eq_getElem?_getD, List.getElem?_take, hj, hjl]
  · simp only [if_neg h]
    by_cases hjl : j < t.length
    · simp [treeGet, List.getD_eq_getElem?_getD, List.getElem?_append, hjl]
    · simp only [if_neg hjl]
      have : j - t.length < n - t.length := by omega
      simp [treeGet, List.getD_eq_getElem?_getD, List.getElem?_append,
        List.getElem?_replicate, hjl, this]

/-- The writes performed by a successful `split`, for arbitrary child slots:
resize to `2 ^ (level + 1) + 1`, then write `old` at `i0` and `new` at `i1`. -/
theorem split_write_spec (t : SplitTree) (p : NodeIndex) (v old new : TreeNode)
    (i0 i1 : Nat) (hp : p.idx < t.length) (h01 : i0 ≠ i1)
    (hi0p : i0 ≠ p.idx) (hi1p : i1 ≠ p.idx)
    (hi0 : i0 < 2 ^ (p.level + 1) + 1) (hi1 : i1 < 2 ^ (p.level + 1) + 1) :
    (((SplitTree.fix_len_parent (t.set p.idx v) p).set i0 old).set i1 new).length =
      2 ^ (p.level + 1) + 1 ∧
    treeGet (((SplitTree.fix_len_parent (t.set p.idx v) p).set i0 old).set i1 new)
      p.idx = v ∧
    treeGet (((SplitTree.fix_len_parent (t.set p.idx v) p).set i0 old).set i1 new)
      i0 = old ∧
    treeGet (((SplitTree.fix_len_parent (t.set p.idx v) p).set i0 old).set i1 new)
      i1 = new := by
  have hplt : p.idx + 1 < 2 ^ p.level := lt_pow_level p
  have hpow : (2 : Nat) ^ (p.level + 1) = 2 * 2 ^ p.level := by ring
  have hsetlen : (t.set p.idx v).length = t.length := by simp
  have hLlen : (SplitTree.fix_len_parent (t.set p.idx v) p).length =
      2 ^ (p.level + 1) + 1 := by
    rw [SplitTree.fix_len_parent, resize_with_length, Nat.shiftLeft_eq, one_mul]
  have hget2 : ∀ j, j < 2 ^ (p.level + 1) + 1 →
      treeGet (SplitTree.fix_len_parent (t.set p.idx v) p) j =
      if j < t.length then treeGet (t.set p.idx v) j else TreeNode.None := by
    intro j hj
    rw [SplitTree.fix_len_parent,
      show (1 <<< (p.level + 1)) + 1 = 2 ^ (p.level + 1) + 1 by
        rw [Nat.shiftLeft_eq, one_mul],
      treeGet_resize_with _ _ _ hj, hsetlen]
  refine ⟨by simp [hLlen], ?_, ?_, ?_⟩
  · rw [treeGet_set_ne _ _ _ _ (fun hh => hi1p hh),
      treeGet_set_ne _ _ _ _ (fun hh => hi0p hh),
      hget2 _ (by omega), if_pos hp, treeGet_set_eq _ _ _ (by simpa using hp)]
  · rw [treeGet_set_ne _ _ _ _ (fun hh => h01 hh.symm),
      treeGet_set_eq _ _ _ (by simp [hLlen]; omega)]
  · rw [treeGet_set_eq _ _ _ (by simp [hLlen]; omega)]

/-- Characterisation of a successful `split`: the slot at `parent` must hold
a leaf; the operation resizes the backing sequence to
`2 ^ (parent.level() + 1) + 1`, installs the split node at `parent`
(`Horizontal` for `Left`/`Right`, `Vertical` for `Above`/`Below`, with the
given fraction), places the displaced leaf and the new content per the
direction table, and returns `[old-content-index, new-content-index]`. -/
theorem split_ok (t : SplitTree) (p : NodeIndex) (s : Split) (f : Frac)
    (new : TreeNode) (hp : p.idx < t.length)
    (hleaf : (treeGet t p.idx).is_leaf = true) :
    ∃ t',
      SplitTree.split t p s f new =
        .ok (t', (if s = .Right ∨ s = .Above then p.right else p.left),
                 (if s = .Right ∨ s = .Above then p.left else p.right)) ∧
      t'.length = 2 ^ (p.level + 1) + 1 ∧
      treeGet t' p.idx = (if s = .Left ∨ s = .Right
        then TreeNode.Horizontal Rect.NOTHING f
        else TreeNode.Vertical Rect.NOTHING f) ∧
      treeGet t' (if s = .Right ∨ s = .Above then p.right else p.left).idx =
        treeGet t p.idx ∧
      treeGet t' (if s = .Right ∨ s = .Above then p.left else p.right).idx = new := by
  have hplt : p.idx + 1 < 2 ^ p.level := lt_pow_level p
  have hpow : (2 : Nat) ^ (p.level + 1) = 2 * 2 ^ p.level := by ring
  have hlidx : p.left.idx = p.idx * 2 + 1 := rfl
  have hridx : p.right.idx = p.idx * 2 + 2 := rfl
  cases s
  · obtain ⟨hl, hv, ho, hn⟩ := split_write_spec t p
      (TreeNode.Horizontal Rect.NOTHING f) (treeGet t p.idx) new
      p.left.idx p.right.idx hp (by omega) (by omega) (by omega)
      (by omega) (by omega)
    simp only [SplitTree.split, TreeNode.split, hleaf, reduceCtorEq, false_or,
      or_false, or_self, reduceIte, if_true, if_false]
    exact ⟨_, rfl, hl, hv, ho, hn⟩
  · obtain ⟨hl, hv, ho, hn⟩ := split_write_spec t p
      (TreeNode.Horizontal Rect.NOTHING f) (treeGet t p.idx) new
      p.right.idx p.left.idx hp (by omega) (by omega) (by omega)
      (by omega) (by omega)
    simp only [SplitTree.split, TreeNode.split, hleaf, reduceCtorEq, false_or,
      or_false, or_self, reduceIte, if_true, if_false]
    exact ⟨_, rfl, hl, hv, ho, hn⟩
  · obtain ⟨hl, hv, ho, hn⟩ := split_write_spec t p
      (TreeNode.Vertical Rect.NOTHING f) (treeGet t p.idx) new
      p.right.idx p.left.idx hp (by omega) (by omega) (by omega)
      (by omega) (by omega)
    simp only [SplitTree.split, TreeNode.split, hleaf, reduceCtorEq, false_or,
      or_false, or_self, reduceIte, if_true, if_false]
    exact ⟨_, rfl, hl, hv, ho, hn⟩
  · obtain ⟨hl, hv, ho, hn⟩ := split_write_spec t p
      (TreeNode.Vertical Rect.NOTHING f) (treeGet t p.idx) new
      p.left.idx p.right.idx hp (by omega) (by omega) (by omega)
      (by omega) (by omega)
    simp only [SplitTree.split, TreeNode.split, hleaf, reduceCtorEq, false_or,
      or_false, or_self, reduceIte, if_true, if_false]
    exact ⟨_, rfl, hl, hv, ho, hn⟩

/-- The failing path of `split`: if the parent slot does not hold a leaf, the
`assert!` fires, and at that moment the parent slot has already been replaced
by the new split node. -/
theorem split_error (t : SplitTree) (p : NodeIndex) (s : Split) (f : Frac)
    (new : TreeNode) (hleaf : (treeGet t p.idx).is_leaf = false) :
    SplitTree.split t p s f new =
      .error (t.set p.idx ((treeGet t p.idx).split s f).1) := by
  simp only [SplitTree.split, TreeNode.split, hleaf, Bool.false_eq_true,
    reduceIte, if_false]

/-!
## Scan characterisations
-/

theorem treeGet_cons_zero (a : TreeNode) (l : List TreeNode) :
    treeGet (a :: l) 0 = a := rfl

theorem treeGet_cons_succ (a : TreeNode) (l : List TreeNode) (j : Nat) :
    treeGet (a :: l) (j + 1) = treeGet l j := rfl

/-- `Iterator::find_map` over the backing sequence returns `some r` exactly
when some slot produces `r` and every earlier slot produces nothing. -/
theorem findSome?_iff {β : Type} (f : TreeNode → Option β) :
    ∀ (t : List TreeNode) (r : β),
      t.findSome? f = some r ↔
        ∃ j, j < t.length ∧ f (treeGet t j) = some r ∧
          ∀ i, i < j → f (treeGet t i) = none := by
  intro t
  induction t with
  | nil =>
    intro r
    constructor
    · intro h; simp at h
    · rintro ⟨j, hj, _, _⟩; simp at hj
  | cons a l ih =>
    intro r
    rw [List.findSome?]
    cases hfa : f a with
    | some b =>
      constructor
      · intro h
        exact ⟨0, by simp, by rw [treeGet_cons_zero, hfa]; exact h,
          fun i hi => absurd hi (by omega)⟩
      · rintro ⟨j, hj, hfj, hprev⟩
        cases j with
        | zero => rw [treeGet_cons_zero, hfa] at hfj; exact hfj
        | succ j' =>
          have := hprev 0 (by omega)
          rw [treeGet_cons_zero, hfa] at this
          exact absurd this (by simp)
    | none =>
      rw [ih r]
      constructor
      · rintro ⟨j, hj, hfj, hprev⟩
        refine ⟨j + 1, by simp; omega, by rwa [treeGet_cons_succ], ?_⟩
        intro i hi
        cases i with
        | zero => rw [treeGet_cons_zero]; exact hfa
        | succ i' => rw [treeGet_cons_succ]; exact hprev i' (by omega)
      · rintro ⟨j, hj, hfj, hprev⟩
        cases j with
        | zero => rw [treeGet_cons_zero, hfa] at hfj; exact absurd hfj (by simp)
        | succ j' =>
          refine ⟨j', by simp at hj; omega, by rwa [treeGet_cons_succ] at hfj, ?_⟩
          intro i hi
          have := hprev (i + 1) (by omega)
          rwa [treeGet_cons_succ] at this

/-- A successful collapse never changes the length of the backing sequence. -/
theorem remove_empty_leaf_length (t t' : SplitTree)
    (h : SplitTree.remove_empty_leaf t = some t') : t'.length = t.length := by
  rw [SplitTree.remove_empty_leaf] at h
  cases hf : t.findIdx? TreeNode.is_empty_leaf with
  | none => simp only [hf] at h; injection h with h; rw [← h]
  | some n =>
    simp only [hf] at h
    cases hp : (NodeIndex.mk n).parent with
    | none => simp only [hp] at h; exact absurd h (by simp)
    | some p =>
      simp only [hp] at h
      injection h with h
      rw [← h, SplitTree.promoteLoop_length]
      simp

/-!
## Concrete fixtures

Small concrete tabs and trees used by counterexamples and witnesses.  The
`c3L*` sequence replays, on explicit list values, the operation chain
`new → split(root, Right) → split(1, Right) → remove C → collapse →
remove B → collapse → split(root, Right)`.
-/

/-- Fixture tab: a scene-view panel. -/
def tabA : Tab := ⟨'a', "A", ⟨.sceneTab, 0⟩⟩

/-- Fixture tab: a hierarchy panel. -/
def tabB : Tab := ⟨'b', "B", ⟨.hierarchy, 0⟩⟩

/-- Fixture tab: an inspector panel. -/
def tabC : Tab := ⟨'c', "C", ⟨.inspector, 0⟩⟩

/-- Fixture tab: a timeline panel. -/
def tabD : Tab := ⟨'d', "D", ⟨.timeline, 0⟩⟩

/-- Fixture fraction token. -/
def frHalf : Frac := ⟨1⟩

/-- Fixture split node. -/
def hNode : TreeNode := TreeNode.Horizontal Rect.NOTHING frHalf

/-- Fixture empty leaf (tab list emptied, default `active`). -/
def leafE : TreeNode := TreeNode.Leaf Rect.NOTHING Rect.NOTHING [] 0

/-- State after `split(root, Right, leaf B)` on `new(leaf A)`. -/
def c3L1 : SplitTree :=
  [hNode, TreeNode.leaf tabB, TreeNode.leaf tabA, TreeNode.None, TreeNode.None]

/-- State after the further `split(1, Right, leaf C)`. -/
def c3L2 : SplitTree :=
  [hNode, hNode, TreeNode.leaf tabA, TreeNode.leaf tabC, TreeNode.leaf tabB,
   TreeNode.None, TreeNode.None, TreeNode.None, TreeNode.None]

/-- State after removing tab C from the leaf at slot 3. -/
def c3L3 : SplitTree :=
  [hNode, hNode, TreeNode.leaf tabA, leafE, TreeNode.leaf tabB,
   TreeNode.None, TreeNode.None, TreeNode.None, TreeNode.None]

/-- State after collapsing the empty leaf at slot 3 (slot 4 promoted to 1). -/
def c3L4 : SplitTree :=
  [hNode, TreeNode.leaf tabB, TreeNode.leaf tabA, TreeNode.None, TreeNode.None,
   TreeNode.None, TreeNode.None, TreeNode.None, TreeNode.None]

/-- State after removing tab B from the leaf at slot 1. -/
def c3L5 : SplitTree :=
  [hNode, leafE, TreeNode.leaf tabA, TreeNode.None, TreeNode.None,
   TreeNode.None, TreeNode.None, TreeNode.None, TreeNode.None]

/-- State after collapsing the empty leaf at slot 1: a single root leaf in a
length-9 backing sequence. -/
def c3L6 : SplitTree :=
  [TreeNode.leaf tabA, TreeNode.None, TreeNode.None, TreeNode.None,
   TreeNode.None, TreeNode.None, TreeNode.None, TreeNode.None, TreeNode.None]

/-- State after `split(root, Right, leaf D)` on `c3L6`: `resize_with`
truncated the backing sequence from 9 slots to 5. -/
def c3L7 : SplitTree :=
  [hNode, TreeNode.leaf tabD, TreeNode.leaf tabA, TreeNode.None, TreeNode.None]

/-!
## The claims
-/

/-- C5.  For every `NodeIndex` `i`: `i.left() == 2i+1`, `i.right() == 2i+2`,
`i.left().parent() == Some(i)`, `i.right().parent() == Some(i)`, and the
root has no parent. -/
theorem C5_child_parent_addressing (i : NodeIndex) :
    i.left.idx = 2 * i.idx + 1 ∧ i.right.idx = 2 * i.idx + 2 ∧
    i.left.parent = some i ∧ i.right.parent = some i ∧
    NodeIndex.root.parent = none := by
  obtain ⟨n⟩ := i
  refine ⟨by simp only [NodeIndex.left]; omega,
    by simp only [NodeIndex.right]; omega, ?_, ?_, rfl⟩
  · simp only [NodeIndex.left, NodeIndex.parent]
    rw [if_pos (by omega)]
    simp only [Option.some.injEq, NodeIndex.mk.injEq]
    omega
  · simp only [NodeIndex.right, NodeIndex.parent]
    rw [if_pos (by omega)]
    simp only [Option.some.injEq, NodeIndex.mk.injEq]
    omega

/-- C4 counterexample.  The claim says `root.level() == 0`; the code computes
the bit length of `i + 1`, so `root.level() == 1`. -/
theorem C4_counterexample : ¬ (NodeIndex.root.level = 0) := by decide

/-- C4 (amended).  `i.level()` equals `⌊log2(i+1)⌋ + 1` (the bit length of
`i + 1`), so `root.level() == 1`; `level` is non-decreasing in `i`. -/
theorem C4_level_amended :
    (∀ i : NodeIndex, i.level = Nat.log2 (i.idx + 1) + 1) ∧
    NodeIndex.root.level = 1 ∧
    (∀ i j : NodeIndex, i.idx ≤ j.idx → i.level ≤ j.level) :=
  ⟨level_eq_log2, by decide, fun _ _ h => level_monotone h⟩

/-- C4 witness: the monotonicity part applied at the concrete pair `2 ≤ 5`. -/
theorem C4_level_amended_witness :
    (NodeIndex.mk 2).idx ≤ (NodeIndex.mk 5).idx ∧
    (NodeIndex.mk 2).level ≤ (NodeIndex.mk 5).level :=
  ⟨by decide, C4_level_amended.2.2 ⟨2⟩ ⟨5⟩ (by decide)⟩

/-- C6 counterexample.  On the one-node tree whose root is an empty leaf,
`remove_empty_leaf` is not a no-op: it does not return the tree unchanged
(it panics on `parent().unwrap()`). -/
theorem C6_counterexample :
    ¬ (SplitTree.remove_empty_leaf [TreeNode.leaf_with []] =
        some [TreeNode.leaf_with []]) := by decide

/-- C6 (amended).  If the tree has exactly one node and that node is a leaf
with an empty tab list, the collapse scan finds it at the root, the root has
no parent, and the `unwrap` of the parent fails: the call panics (modelled
`none`) instead of being a no-op. -/
theorem C6_root_empty_leaf_panics (r v : Rect) (a : Nat) :
    SplitTree.remove_empty_leaf [TreeNode.Leaf r v [] a] = none := rfl

/-- C7 counterexample.  Removing the last tab (index 1) of a two-tab leaf
whose `active` is 1 leaves a non-empty tab list `[A]` with `active = 1`,
which is *not* `< 1`: `remove_tab` does not re-clamp `active`. -/
theorem C7_counterexample :
    TreeNode.remove_tab (TreeNode.Leaf ⟨0⟩ ⟨0⟩ [tabA, tabB] 1) 1 =
      some (some tabB, TreeNode.Leaf ⟨0⟩ ⟨0⟩ [tabA] 1) ∧
    ¬ (1 < ([tabA] : List Tab).length) := by decide

/-- C7 (amended).  `remove_tab` on a leaf with a valid index removes exactly
that tab and leaves `active` unchanged — no re-clamping happens, so after a
removal that leaves the list non-empty `active` may be out of range (the
out-of-range state is tolerated later by `find_active`'s optional lookup). -/
theorem C7_remove_tab_no_clamp (r v : Rect) (tabs : List Tab) (a idx : Nat)
    (tb : Tab) (h : tabs[idx]? = some tb) :
    TreeNode.remove_tab (TreeNode.Leaf r v tabs a) idx =
      some (some tb, TreeNode.Leaf r v (tabs.eraseIdx idx) a) := by
  simp [TreeNode.remove_tab, h]

/-- C7 witness: the amended statement applied at the counterexample input. -/
theorem C7_remove_tab_no_clamp_witness :
    TreeNode.remove_tab (TreeNode.Leaf ⟨0⟩ ⟨0⟩ [tabA, tabB] 1) 1 =
      some (some tabB, TreeNode.Leaf ⟨0⟩ ⟨0⟩ ([tabA, tabB].eraseIdx 1) 1) :=
  C7_remove_tab_no_clamp ⟨0⟩ ⟨0⟩ [tabA, tabB] 1 1 tabB (by decide)

/-- C9.  When no leaf has an empty tab list, `remove_empty_leaf` returns the
tree completely unchanged: the scan in array order finds nothing and the
operation is an idempotent no-op. -/
theorem C9_collapse_noop (t : SplitTree)
    (h : ∀ node ∈ t, node.is_empty_leaf = false) :
    SplitTree.remove_empty_leaf t = some t := by
  rw [SplitTree.remove_empty_leaf]
  have hf : t.findIdx? TreeNode.is_empty_leaf = none := by
    rw [List.findIdx?_eq_none_iff]; exact h
  simp only [hf]

/-- C9 witness: a two-slot tree with a non-empty leaf is returned unchanged. -/
theorem C9_collapse_noop_witness :
    SplitTree.remove_empty_leaf [TreeNode.leaf tabA, TreeNode.None] =
      some [TreeNode.leaf tabA, TreeNode.None] :=
  C9_collapse_noop [TreeNode.leaf tabA, TreeNode.None] (by decide)

/-- C2.  For every `split(parent, request, fraction, new)` on a leaf slot:
`Left`/`Right` install a `Horizontal` node and `Above`/`Below` a `Vertical`
node carrying the given fraction; for `Right`/`Above` the pre-existing
content lands at `2*parent+2` and the new content at `2*parent+1`, for
`Left`/`Below` the old content goes to `2*parent+1` and the new to
`2*parent+2`; the returned pair is `[old-content-index, new-content-index]`. -/
theorem C2_split_direction_table (t : SplitTree) (p : NodeIndex) (s : Split)
    (f : Frac) (new : TreeNode) (hp : p.idx < t.length)
    (hleaf : (treeGet t p.idx).is_leaf = true) :
    ∃ t' i0 i1,
      SplitTree.split t p s f new = .ok (t', i0, i1) ∧
      i0 = (if s = .Right ∨ s = .Above then p.right else p.left) ∧
      i1 = (if s = .Right ∨ s = .Above then p.left else p.right) ∧
      i0.idx = (if s = .Right ∨ s = .Above then 2 * p.idx + 2 else 2 * p.idx + 1) ∧
      i1.idx = (if s = .Right ∨ s = .Above then 2 * p.idx + 1 else 2 * p.idx + 2) ∧
      treeGet t' p.idx = (if s = .Left ∨ s = .Right
        then TreeNode.Horizontal Rect.NOTHING f
        else TreeNode.Vertical Rect.NOTHING f) ∧
      treeGet t' i0.idx = treeGet t p.idx ∧
      treeGet t' i1.idx = new := by
  obtain ⟨t', hrun, _, hnode, hold, hnew⟩ := split_ok t p s f new hp hleaf
  refine ⟨t', _, _, hrun, rfl, rfl, ?_, ?_, hnode, hold, hnew⟩
  · by_cases h : s = .Right ∨ s = .Above <;>
      simp only [h, if_true, if_false, NodeIndex.left, NodeIndex.right] <;> omega
  · by_cases h : s = .Right ∨ s = .Above <;>
      simp only [h, if_true, if_false, NodeIndex.left, NodeIndex.right] <;> omega

/-- C2 witness: splitting the singleton root leaf `Right` — the old leaf
lands at slot 2, the new content at slot 1, and the pair is returned in
`[old, new]` order. -/
theorem C2_split_direction_table_witness :
    ∃ t' i0 i1,
      SplitTree.split [TreeNode.leaf tabA] ⟨0⟩ .Right frHalf (TreeNode.leaf tabB) =
        .ok (t', i0, i1) ∧
      i0 = (if Split.Right = .Right ∨ Split.Right = .Above
        then (NodeIndex.mk 0).right else (NodeIndex.mk 0).left) ∧
      i1 = (if Split.Right = .Right ∨ Split.Right = .Above
        then (NodeIndex.mk 0).left else (NodeIndex.mk 0).right) ∧
      i0.idx = (if Split.Right = .Right ∨ Split.Right = .Above
        then 2 * (NodeIndex.mk 0).idx + 2 else 2 * (NodeIndex.mk 0).idx + 1) ∧
      i1.idx = (if Split.Right = .Right ∨ Split.Right = .Above
        then 2 * (NodeIndex.mk 0).idx + 1 else 2 * (NodeIndex.mk 0).idx + 2) ∧
      treeGet t' (NodeIndex.mk 0).idx = (if Split.Right = .Left ∨ Split.Right = .Right
        then TreeNode.Horizontal Rect.NOTHING frHalf
        else TreeNode.Vertical Rect.NOTHING frHalf) ∧
      treeGet t' i0.idx = treeGet [TreeNode.leaf tabA] (NodeIndex.mk 0).idx ∧
      treeGet t' i1.idx = TreeNode.leaf tabB :=
  C2_split_direction_table [TreeNode.leaf tabA] ⟨0⟩ .Right frHalf
    (TreeNode.leaf tabB) (by decide) (by decide)

/-- C8 counterexample.  Splitting a slot that holds a `Vertical` node halts
on the assert, but the state at the panic is *not* the pre-call state: the
parent slot has already been overwritten with the new `Horizontal` node. -/
theorem C8_counterexample :
    SplitTree.split [TreeNode.Vertical ⟨7⟩ ⟨3⟩] ⟨0⟩ .Right frHalf
        (TreeNode.leaf tabA) =
      .error [TreeNode.Horizontal Rect.NOTHING frHalf] ∧
    ([TreeNode.Horizontal Rect.NOTHING frHalf] : SplitTree) ≠
      [TreeNode.Vertical ⟨7⟩ ⟨3⟩] := ⟨rfl, by decide⟩

/-- C8 (amended).  `split` on a `Leaf` slot completes as a whole and returns
`ok`; on any other slot it halts on the assert (`error`), but by that point
the parent slot has already been replaced by the freshly-built split node,
so the in-memory state at the panic is the pre-call state with the parent
slot overwritten — not the unchanged pre-call state. -/
theorem C8_split_atomicity_amended (t : SplitTree) (p : NodeIndex) (s : Split)
    (f : Frac) (new : TreeNode) (hp : p.idx < t.length) :
    ((treeGet t p.idx).is_leaf = true →
      ∃ t' i0 i1, SplitTree.split t p s f new = .ok (t', i0, i1)) ∧
    ((treeGet t p.idx).is_leaf = false →
      SplitTree.split t p s f new =
        .error (t.set p.idx ((treeGet t p.idx).split s f).1) ∧
      treeGet (t.set p.idx ((treeGet t p.idx).split s f).1) p.idx =
        ((treeGet t p.idx).split s f).1) := by
  constructor
  · intro hleaf
    obtain ⟨t', hrun, -⟩ := split_ok t p s f new hp hleaf
    exact ⟨t', _, _, hrun⟩
  · intro hleaf
    exact ⟨split_error t p s f new hleaf, treeGet_set_eq _ _ _ hp⟩

/-- C8 witness: the error half applied at the counterexample input. -/
theorem C8_split_atomicity_amended_witness :
    SplitTree.split [TreeNode.Vertical ⟨7⟩ ⟨3⟩] ⟨0⟩ .Right frHalf
        (TreeNode.leaf tabA) =
      .error (([TreeNode.Vertical ⟨7⟩ ⟨3⟩] : SplitTree).set 0
        ((treeGet [TreeNode.Vertical ⟨7⟩ ⟨3⟩] 0).split .Right frHalf).1) ∧
    treeGet (([TreeNode.Vertical ⟨7⟩ ⟨3⟩] : SplitTree).set 0
        ((treeGet [TreeNode.Vertical ⟨7⟩ ⟨3⟩] 0).split .Right frHalf).1) 0 =
      ((treeGet [TreeNode.Vertical ⟨7⟩ ⟨3⟩] 0).split .Right frHalf).1 :=
  (C8_split_atomicity_amended [TreeNode.Vertical ⟨7⟩ ⟨3⟩] ⟨0⟩ .Right frHalf
    (TreeNode.leaf tabA) (by decide)).2 (by decide)

/-- C10.  `find_active` is a total scan: its result is characterised as the
first slot in array order whose leaf has an in-range active tab whose panel
is of the requested kind, paired with that leaf's stored viewport; a leaf
whose `active` is out of range for its tab list (an empty list included)
yields nothing and is silently skipped. -/
theorem C10_find_active_first_hit (t : SplitTree) (k : PanelKind) :
    (∀ r, SplitTree.find_active t k = some r ↔
      ∃ j, j < t.length ∧ SplitTree.leaf_hit k (treeGet t j) = some r ∧
        ∀ i, i < j → SplitTree.leaf_hit k (treeGet t i) = none) ∧
    (∀ rect v tabs a, tabs.length ≤ a →
      SplitTree.leaf_hit k (TreeNode.Leaf rect v tabs a) = none) ∧
    (∀ rect v tabs a r, SplitTree.leaf_hit k (TreeNode.Leaf rect v tabs a) = some r →
      ∃ tab, tabs[a]? = some tab ∧ tab.inner.kind = k ∧ r = (v, tab.inner)) := by
  refine ⟨fun r => findSome?_iff (SplitTree.leaf_hit k) t r, ?_, ?_⟩
  · intro rect v tabs a ha
    simp [SplitTree.leaf_hit, List.getElem?_eq_none ha]
  · intro rect v tabs a r h
    simp only [SplitTree.leaf_hit] at h
    cases hget : tabs[a]? with
    | none => rw [hget] at h; simp at h
    | some tab =>
      rw [hget] at h
      simp only [Option.some_bind] at h
      rw [Panel.downcast] at h
      by_cases hk : tab.inner.kind = k
      · rw [if_pos hk] at h
        simp only [Option.map_some', Option.some.injEq] at h
        exact ⟨tab, rfl, hk, h.symm⟩
      · rw [if_neg hk] at h
        simp at h

/-- C10 witness: a tree whose first leaf has `active = 5` out of range for
its single tab is skipped, and the second leaf (kind `hierarchy`) is
returned with its stored viewport. -/
theorem C10_find_active_first_hit_witness :
    SplitTree.find_active
      [TreeNode.Leaf ⟨1⟩ ⟨2⟩ [tabA] 5, TreeNode.Leaf ⟨3⟩ ⟨4⟩ [tabB] 0]
      .hierarchy = some (⟨4⟩, tabB.inner) :=
  ((C10_find_active_first_hit
    [TreeNode.Leaf ⟨1⟩ ⟨2⟩ [tabA] 5, TreeNode.Leaf ⟨3⟩ ⟨4⟩ [tabB] 0]
    .hierarchy).1 (⟨4⟩, tabB.inner)).mpr
    ⟨1, by decide, by decide, fun i hi => by
      obtain rfl : i = 0 := by omega
      decide⟩

/-- C1.  After `remove_empty_leaf` collapses the first empty leaf `n` (with
parent `p`), the backing length is unchanged, and the sibling subtree is
re-addressed exactly one level shallower: the value of the sibling's
depth-`l` descendant at offset `k` (source index `(c+1)·2^l - 1 + k`) now
sits at the same offset of `p`'s depth-`l` range (index
`(p+1)·2^l - 1 + k`); in particular (`l = 0`) the sibling's root occupies
`p`'s old index.  Both coordinate systems satisfy the `2i+1`/`2i+2` child
addressing, so the promoted subtree keeps its logical shape at the shallower
addresses; and every surviving slot is a verbatim slot of the input array,
so the relative order of tabs inside every surviving leaf is unchanged. -/
theorem C1_collapse_promotes_sibling (t : SplitTree) (n : Nat)
    (hfind : t.findIdx? TreeNode.is_empty_leaf = some n) (hn : n ≠ 0) :
    ∃ p t', (NodeIndex.mk n).parent = some p ∧
      SplitTree.remove_empty_leaf t = some t' ∧
      t'.length = t.length ∧
      ∃ c, c = (if (NodeIndex.mk n).is_left then p.right.idx else p.left.idx) ∧
        (∀ l k, k < 2 ^ l → (c + 1) * 2 ^ l - 1 + k < t.length →
          treeGet t' ((p.idx + 1) * 2 ^ l - 1 + k) =
            treeGet t ((c + 1) * 2 ^ l - 1 + k)) ∧
        (∀ l k,
          (NodeIndex.mk ((p.idx + 1) * 2 ^ l - 1 + k)).left.idx =
            (p.idx + 1) * 2 ^ (l + 1) - 1 + 2 * k ∧
          (NodeIndex.mk ((p.idx + 1) * 2 ^ l - 1 + k)).right.idx =
            (p.idx + 1) * 2 ^ (l + 1) - 1 + (2 * k + 1) ∧
          (NodeIndex.mk ((c + 1) * 2 ^ l - 1 + k)).left.idx =
            (c + 1) * 2 ^ (l + 1) - 1 + 2 * k ∧
          (NodeIndex.mk ((c + 1) * 2 ^ l - 1 + k)).right.idx =
            (c + 1) * 2 ^ (l + 1) - 1 + (2 * k + 1)) ∧
        (∀ j, treeGet t' j = TreeNode.None ∨
          ∃ i, i < t.length ∧ treeGet t' j = treeGet t i) := by
  obtain ⟨p, t', hpar, hrun, hlen, c, hc, hcopy, hslots⟩ :=
    remove_empty_leaf_spec t n hfind hn
  exact ⟨p, t', hpar, hrun, hlen, c, hc, hcopy,
    fun l k => ⟨(child_edge_arith p.idx l k).1, (child_edge_arith p.idx l k).2,
      (child_edge_arith c l k).1, (child_edge_arith c l k).2⟩, hslots⟩

/-- C1 witness: the three-level tree `c3L3` (two sequential splits, then the
leaf at depth-2 slot 3 emptied), instantiating the promotion statement. -/
theorem C1_collapse_promotes_sibling_witness :
    ∃ p t', (NodeIndex.mk 3).parent = some p ∧
      SplitTree.remove_empty_leaf c3L3 = some t' ∧
      t'.length = c3L3.length ∧
      ∃ c, c = (if (NodeIndex.mk 3).is_left then p.right.idx else p.left.idx) ∧
        (∀ l k, k < 2 ^ l → (c + 1) * 2 ^ l - 1 + k < c3L3.length →
          treeGet t' ((p.idx + 1) * 2 ^ l - 1 + k) =
            treeGet c3L3 ((c + 1) * 2 ^ l - 1 + k)) ∧
        (∀ l k,
          (NodeIndex.mk ((p.idx + 1) * 2 ^ l - 1 + k)).left.idx =
            (p.idx + 1) * 2 ^ (l + 1) - 1 + 2 * k ∧
          (NodeIndex.mk ((p.idx + 1) * 2 ^ l - 1 + k)).right.idx =
            (p.idx + 1) * 2 ^ (l + 1) - 1 + (2 * k + 1) ∧
          (NodeIndex.mk ((c + 1) * 2 ^ l - 1 + k)).left.idx =
            (c + 1) * 2 ^ (l + 1) - 1 + 2 * k ∧
          (NodeIndex.mk ((c + 1) * 2 ^ l - 1 + k)).right.idx =
            (c + 1) * 2 ^ (l + 1) - 1 + (2 * k + 1)) ∧
        (∀ j, treeGet t' j = TreeNode.None ∨
          ∃ i, i < c3L3.length ∧ treeGet t' j = treeGet c3L3 i) :=
  C1_collapse_promotes_sibling c3L3 3 (by decide) (by decide)

/-- The collapse of `c3L3` computed concretely: the empty leaf at 3 and its
parent 1 are cleared and the sibling leaf at 4 is promoted to slot 1. -/
theorem collapse_c3L3_eq : SplitTree.remove_empty_leaf c3L3 = some c3L4 := by
  have h1 : SplitTree.remove_empty_leaf c3L3 =
      some (SplitTree.promoteLoop ((c3L3.set 1 TreeNode.None).set 3 TreeNode.None)
        ⟨1⟩ true 0) := rfl
  have h2 : SplitTree.promoteLoop ((c3L3.set 1 TreeNode.None).set 3 TreeNode.None)
      ⟨1⟩ true 0 = SplitTree.promoteLoop c3L4 ⟨1⟩ true 1 := by
    rw [SplitTree.promoteLoop, dif_pos (by decide)]
    congr 1
  have h3 : SplitTree.promoteLoop c3L4 ⟨1⟩ true 1 = c3L4 := by
    rw [SplitTree.promoteLoop, dif_neg (by decide)]
    decide
  rw [h1, h2, h3]

/-- The collapse of `c3L5` computed concretely: the root split node and the
empty leaf at 1 are cleared and the leaf at 2 is promoted to the root. -/
theorem collapse_c3L5_eq : SplitTree.remove_empty_leaf c3L5 = some c3L6 := by
  have h1 : SplitTree.remove_empty_leaf c3L5 =
      some (SplitTree.promoteLoop ((c3L5.set 0 TreeNode.None).set 1 TreeNode.None)
        ⟨0⟩ true 0) := rfl
  have h2 : SplitTree.promoteLoop ((c3L5.set 0 TreeNode.None).set 1 TreeNode.None)
      ⟨0⟩ true 0 = SplitTree.promoteLoop c3L6 ⟨0⟩ true 1 := by
    rw [SplitTree.promoteLoop, dif_pos (by decide)]
    congr 1
  have h3 : SplitTree.promoteLoop c3L6 ⟨0⟩ true 1 =
      SplitTree.promoteLoop c3L6 ⟨0⟩ true 2 := by
    rw [SplitTree.promoteLoop, dif_pos (by decide)]
    congr 1
  have h4 : SplitTree.promoteLoop c3L6 ⟨0⟩ true 2 = c3L6 := by
    rw [SplitTree.promoteLoop, dif_neg (by decide)]
    decide
  rw [h1, h2, h3, h4]

/-- C3 counterexample.  A sequence of operations (two splits, a tab removal
and collapse, another tab removal and collapse, then a split of the root
leaf) after which the backing length *decreases* from 9 to 5: the final
split's `resize_with` truncates the sequence. -/
theorem C3_counterexample :
    SplitTree.split (SplitTree.new (TreeNode.leaf tabA)) ⟨0⟩ .Right frHalf
      (TreeNode.leaf tabB) = .ok (c3L1, ⟨2⟩, ⟨1⟩) ∧
    SplitTree.split c3L1 ⟨1⟩ .Right frHalf (TreeNode.leaf tabC) =
      .ok (c3L2, ⟨4⟩, ⟨3⟩) ∧
    SplitTree.remove_tab_at c3L2 3 0 = some (some tabC, c3L3) ∧
    SplitTree.remove_empty_leaf c3L3 = some c3L4 ∧
    SplitTree.remove_tab_at c3L4 1 0 = some (some tabB, c3L5) ∧
    SplitTree.remove_empty_leaf c3L5 = some c3L6 ∧
    SplitTree.split c3L6 ⟨0⟩ .Right frHalf (TreeNode.leaf tabD) =
      .ok (c3L7, ⟨2⟩, ⟨1⟩) ∧
    c3L6.length = 9 ∧ c3L7.length = 5 ∧ c3L7.length < c3L6.length :=
  ⟨rfl, rfl, rfl, collapse_c3L3_eq, rfl, collapse_c3L5_eq, rfl,
    by decide, by decide, by decide⟩

/-- Length of the backing sequence produced by a successful split, whatever
the child slots written. -/
theorem split_result_length (t : SplitTree) (p : NodeIndex) (v old new : TreeNode)
    (i0 i1 : Nat) :
    (((SplitTree.fix_len_parent (t.set p.idx v) p).set i0 old).set i1 new).length =
      2 ^ (p.level + 1) + 1 := by
  simp only [List.length_set, SplitTree.fix_len_parent, resize_with_length,
    Nat.shiftLeft_eq, one_mul]

/-- Slots introduced by the growth of a split (beyond the old length and
distinct from the two child slots) are `None`. -/
theorem split_fill_spec (t : SplitTree) (p : NodeIndex) (v old new : TreeNode)
    (i0 i1 j : Nat) (hj0 : j ≠ i0) (hj1 : j ≠ i1) (hjt : t.length ≤ j)
    (hjn : j < 2 ^ (p.level + 1) + 1) :
    treeGet (((SplitTree.fix_len_parent (t.set p.idx v) p).set i0 old).set i1 new)
      j = TreeNode.None := by
  rw [treeGet_set_ne _ _ _ _ (fun hh => hj1 hh.symm),
    treeGet_set_ne _ _ _ _ (fun hh => hj0 hh.symm),
    SplitTree.fix_len_parent,
    show (1 <<< (p.level + 1)) + 1 = 2 ^ (p.level + 1) + 1 by
      rw [Nat.shiftLeft_eq, one_mul],
    treeGet_resize_with _ _ _ hjn]
  rw [if_neg (by simp only [List.length_set]; omega)]

/-- C3 (amended).  The backing length never changes under
`remove_empty_leaf`, `append_tab` and `remove_tab`; a successful `split`
sets the length to exactly `2 ^ (parent.level() + 1) + 1` — which grows the
sequence when the split deepens the tree, but *shrinks* it when a shallow
leaf (reached after collapses) is split while the sequence is still long —
and every slot beyond the old length other than the two new child slots is
filled with `None`. -/
theorem C3_length_amended :
    (∀ t t', SplitTree.remove_empty_leaf t = some t' → t'.length = t.length) ∧
    (∀ t i tab t', SplitTree.append_tab_at t i tab = some t' →
      t'.length = t.length) ∧
    (∀ t i idx tb t', SplitTree.remove_tab_at t i idx = some (tb, t') →
      t'.length = t.length) ∧
    (∀ t p s f new t' i0 i1, SplitTree.split t p s f new = .ok (t', i0, i1) →
      t'.length = 2 ^ (p.level + 1) + 1 ∧
      ∀ j, t.length ≤ j → j < t'.length → j ≠ i0.idx → j ≠ i1.idx →
        treeGet t' j = TreeNode.None) := by
  refine ⟨remove_empty_leaf_length, ?_, ?_, ?_⟩
  · intro t i tab t' h
    rw [SplitTree.append_tab_at] at h
    cases ha : (treeGet t i).append_tab tab with
    | none => rw [ha] at h; exact absurd h (by simp)
    | some v =>
      rw [ha] at h
      simp only [Option.map_some', Option.some.injEq] at h
      rw [← h]
      simp
  · intro t i idx tb t' h
    rw [SplitTree.remove_tab_at] at h
    cases ha : (treeGet t i).remove_tab idx with
    | none => rw [ha] at h; exact absurd h (by simp)
    | some v =>
      rw [ha] at h
      simp only [Option.map_some', Option.some.injEq, Prod.mk.injEq] at h
      rw [← h.2]
      simp
  · intro t p s f new t' i0 i1 h
    cases hleaf : (treeGet t p.idx).is_leaf
    · rw [split_error t p s f new hleaf] at h
      exact absurd h (by simp)
    · cases s <;>
        (simp only [SplitTree.split, TreeNode.split, hleaf, reduceIte,
          Except.ok.injEq, Prod.mk.injEq] at h
         obtain ⟨ht, hi0, hi1⟩ := h
         subst ht
         refine ⟨split_result_length t p _ _ _ _ _, ?_⟩
         intro j hjt hjn hj0 hj1
         refine split_fill_spec t p _ _ _ _ _ j ?_ ?_ hjt ?_
         · rw [← hi0] at hj0; exact hj0
         · rw [← hi1] at hj1; exact hj1
         · rw [split_result_length] at hjn; exact hjn)

/-- C3 witness: the split-length clause applied at the final split of the
counterexample chain — the root split of the length-9 sequence `c3L6`
produces a sequence of exactly `2 ^ (root.level + 1) + 1 = 5` slots. -/
theorem C3_length_amended_witness :
    c3L7.length = 2 ^ ((NodeIndex.mk 0).level + 1) + 1 ∧
    ∀ j, c3L6.length ≤ j → j < c3L7.length → j ≠ (NodeIndex.mk 2).idx →
      j ≠ (NodeIndex.mk 1).idx → treeGet c3L7 j = TreeNode.None :=
  C3_length_amended.2.2.2 c3L6 ⟨0⟩ .Right frHalf (TreeNode.leaf tabD) c3L7
    ⟨2⟩ ⟨1⟩ rfl
